import Mathlib

set_option maxRecDepth 100000

/-!
Verification of the persona-driven document-intelligence pipeline
(`src/parser.py`, `src/embeddings.py`, `src/matcher.py`, `src/utils.py`).

Python strings are modelled as `List Char`, Python floats as exact
rationals `ℚ` (for the matcher layer, where only comparisons and copies of
scores occur) or as real numbers `ℝ` (for the cosine-similarity scorer,
whose value involves square roots).  Python whitespace is modelled by the
ASCII whitespace characters plus the three Unicode spaces that
`clean_text` mentions explicitly; all inputs considered here are within
this fragment.
-/

namespace DocIntel

/-- Convenience: the character list of a string literal. -/
def chars (s : String) : List Char := s.data

/-- Python whitespace (`str.strip` / `str.split` / regex `\s`), restricted to
the characters that occur in this code base: ASCII whitespace plus the
NBSP / line-separator / paragraph-separator characters named in `clean_text`. -/
def isPySpace (c : Char) : Bool :=
  c = ' ' || c = '\t' || c = '\n' || c = '\r' || c = '\x0b' || c = '\x0c' ||
  c = '\u00A0' || c = '\u2028' || c = '\u2029'

/-- Python `s.strip()`: drop leading and trailing whitespace. -/
def pyStrip (s : List Char) : List Char :=
  ((s.dropWhile isPySpace).reverse.dropWhile isPySpace).reverse

/-- Python `s.split()` (no separator): whitespace-delimited tokens, no empties. -/
def pySplit (s : List Char) : List (List Char) :=
  (s.splitOnP isPySpace).filter (fun t => !t.isEmpty)

/-- `utils.clean_text`: `' '.join(text.split())`, replace the three special
separators by spaces, and strip.  (After the whitespace split the three
replacements are no-ops, but they are kept to mirror the source.) -/
def clean_text (text : List Char) : List Char :=
  let joined := List.intercalate (chars " ") (pySplit text)
  let replaced := joined.map (fun c =>
    if c = '\u00A0' || c = '\u2028' || c = '\u2029' then ' ' else c)
  pyStrip replaced

end DocIntel

namespace DocIntel

/-- Python `needle in hay` substring test. -/
def containsSub (needle : List Char) : List Char → Bool
  | [] => needle.isEmpty
  | c :: cs => List.isPrefixOf needle (c :: cs) || containsSub needle cs

/-- Python `s.lower()` (ASCII fragment). -/
def pyLower (s : List Char) : List Char := s.map Char.toLower

/-- Python `s.isupper()`: at least one cased character and no lowercase one
(ASCII fragment: cased = alphabetic). -/
def pyIsUpper (s : List Char) : Bool :=
  s.any Char.isAlpha && s.all (fun c => !c.isLower)

/-- Python `s.title()` (ASCII fragment): a letter is uppercased when the
previous character is not a letter, lowercased otherwise. -/
def pyTitle : List Char → List Char := go false
  where go : Bool → List Char → List Char
  | _, [] => []
  | prevAlpha, c :: cs =>
    (if c.isAlpha then (if prevAlpha then c.toLower else c.toUpper) else c) ::
      go c.isAlpha cs

/-- `utils.format_section_title`. -/
def format_section_title (title : List Char) : List Char :=
  if title = [] then chars "Untitled Section"
  else
    let t := clean_text title
    if pyIsUpper t then pyTitle t else t

/-- Python `text.rfind(c, start, stop)`: the largest index `i` with
`start ≤ i < min stop len` and `text[i] = c`, else `-1`. -/
def rfindCharInRange (text : List Char) (c : Char) (start stop : Nat) : ℤ :=
  (List.range (min stop text.length)).foldl
    (fun acc i => if start ≤ i ∧ text.getD i ' ' = c then (i : ℤ) else acc) (-1)

/-- The `while start < len(text)` loop of `utils.chunk_text`.  `start`
increases by at least one per iteration, so `text.length + 1` units of fuel
are enough for the recursion to follow the loop to completion. -/
def chunkLoop (text : List Char) (maxc overlap : Nat) : Nat → Nat → List (List Char)
  | _, 0 => []
  | start, fuel + 1 =>
    if start < text.length then
      let e0 := start + maxc
      let e := if e0 < text.length then
                 (let ls := rfindCharInRange text ' ' start e0
                  if (start : ℤ) < ls then ls.toNat else e0)
               else e0
      let chunk := pyStrip ((text.take e).drop start)
      let rest := chunkLoop text maxc overlap (max (start + 1) (e - overlap)) fuel
      if chunk.isEmpty then rest else chunk :: rest
    else []

/-- `utils.chunk_text`. -/
def chunk_text (text : List Char) (max_chunk_size : Nat := 512) (overlap : Nat := 50) :
    List (List Char) :=
  if text.isEmpty then []
  else if text.length ≤ max_chunk_size then [text]
  else chunkLoop text max_chunk_size overlap 0 (text.length + 1)

/-! ### Regular-expression matchers for `parser.PDFParser.heading_patterns`

Each of the five patterns is compiled by hand into an executable matcher.
Greedy sub-matches whose retreat positions are provably impossible
(a digit run followed by a mandatory `.` cannot stop early, etc.) are
implemented deterministically; the genuinely ambiguous repetition of the
`(\d+\.)` group is enumerated recursively with fuel. -/

/-- A character matched by `.` in a default-mode Python regex. -/
def nonNl (c : Char) : Bool := c != '\n'

/-- Acceptance of `(.+)$` on the remainder of the subject (`$` also matches
just before a single trailing newline). -/
def dotPlusDollar (r : List Char) : Bool :=
  (!r.isEmpty && r.all nonNl) ||
  (r.getLast? = some '\n' && !r.dropLast.isEmpty && r.dropLast.all nonNl)

/-- Acceptance of `\s*(.+)$` on the remainder of the subject. -/
def spacesDotPlusDollar (r : List Char) : Bool :=
  (List.range (r.length + 1)).any (fun k =>
    (r.take k).all isPySpace && dotPlusDollar (r.drop k))

/-- Acceptance of `.*$` on the remainder of the subject. -/
def dotStarDollar (r : List Char) : Bool :=
  r.all nonNl || (r.getLast? = some '\n' && r.dropLast.all nonNl)

/-- Consume one `\d+\.` group at the front, if possible. -/
def digitsThenDot? (s : List Char) : Option (List Char) :=
  match s with
  | c :: _ =>
    if c.isDigit then
      match s.dropWhile Char.isDigit with
      | '.' :: rest => some rest
      | _ => none
    else none
  | [] => none

/-- After at least one `\d+\.` group has been consumed: accept
`(\d+\.)*\s*(.+)$` on the remainder. -/
def numberedAfter : Nat → List Char → Bool
  | 0, _ => false
  | fuel + 1, s =>
    spacesDotPlusDollar s ||
    (match digitsThenDot? s with
     | some rest => numberedAfter fuel rest
     | none => false)

/-- `re.match` of `^(\d+\.)+\s*(.+)$`. -/
def matchNumberedLine (s : List Char) : Bool :=
  match digitsThenDot? s with
  | some rest => numberedAfter (s.length + 1) rest
  | none => false

/-- `re.match` of `^[IVX]+\.\s*(.+)$`.  The `[IVX]+` run cannot stop before
its maximal extent (the next required character is `.`, which is not in the
class), so the matcher is deterministic. -/
def matchRomanLine (s : List Char) : Bool :=
  let run := s.takeWhile (fun c => c = 'I' || c = 'V' || c = 'X')
  !run.isEmpty &&
  (match s.drop run.length with
   | '.' :: rest => spacesDotPlusDollar rest
   | _ => false)

/-- `re.match` of `^[A-Z]\.\s*(.+)$`. -/
def matchLetterDotLine (s : List Char) : Bool :=
  match s with
  | c :: '.' :: rest => c.isUpper && spacesDotPlusDollar rest
  | _ => false

/-- `re.match` of `^[A-Z\s]{3,}$`: the whole line consists of capitals and
whitespace and has length at least three. -/
def matchAllCapsLine (s : List Char) : Bool :=
  decide (3 ≤ s.length) && s.all (fun c => c.isUpper || isPySpace c)

/-- Consume one `\s+[A-Z][a-z]*` group at the front, if possible. -/
def titleGroup? (s : List Char) : Option (List Char) :=
  let sp := s.takeWhile isPySpace
  if sp.isEmpty then none
  else match s.drop sp.length with
    | c :: rest => if c.isUpper then some (rest.dropWhile Char.isLower) else none
    | [] => none

/-- After `[A-Z][a-z]+(\s+[A-Z][a-z]*)` has been consumed: accept
`(\s+[A-Z][a-z]*)*.*$` on the remainder. -/
def titleCaseAfter : Nat → List Char → Bool
  | 0, _ => false
  | fuel + 1, s =>
    dotStarDollar s ||
    (match titleGroup? s with
     | some rest => titleCaseAfter fuel rest
     | none => false)

/-- `re.match` of `^[A-Z][a-z]+(\s+[A-Z][a-z]*)+.*$`. -/
def matchTitleCaseLine (s : List Char) : Bool :=
  match s with
  | c :: rest =>
    c.isUpper &&
    (let low := rest.takeWhile Char.isLower
     !low.isEmpty &&
     (match titleGroup? (rest.drop low.length) with
      | some r2 => titleCaseAfter (r2.length + 1) r2
      | none => false))
  | [] => false

/-- The `for pattern in self.heading_patterns: if re.match(...): +30; break`
test of `_calculate_heading_confidence` (the patterns are matched against
`line.strip()`). -/
def heading_pattern_match (line : List Char) : Bool :=
  let l := pyStrip line
  matchNumberedLine l || matchRomanLine l || matchLetterDotLine l ||
  matchAllCapsLine l || matchTitleCaseLine l

def prose_indicators : List (List Char) :=
  [chars ".", chars ",", chars ";", chars "?", chars "!",
   chars "the", chars "and", chars "of", chars "in", chars "to"]

def section_starters : List (List Char) :=
  [chars "chapter", chars "section", chars "part", chars "appendix",
   chars "introduction", chars "conclusion", chars "summary", chars "overview"]

/-- `parser.PDFParser._calculate_heading_confidence`. -/
def _calculate_heading_confidence (line : List Char) : ℤ :=
  let c1 : ℤ := if heading_pattern_match line then 30 else 0
  let c2 : ℤ := c1 + (if line.length < 80 then 10 else 0)
  let c3 : ℤ := c2 + (if line.getLast? = some ':' then 15 else 0)
  let words := pySplit line
  let c4 : ℤ := c3 +
    (if 2 ≤ words.length ∧ words.all (fun w => (w.headD 'a').isUpper) then 20 else 0)
  let c5 : ℤ := c4 + (if pyIsUpper line ∧ line.length < 50 then 25 else 0)
  let c6 : ℤ := c5 -
    (if prose_indicators.any (fun p => containsSub p (pyLower line)) then 10 else 0)
  let c7 : ℤ := c6 +
    (if section_starters.any (fun st => List.isPrefixOf st (pyLower line)) then 20 else 0)
  max 0 (min 100 c7)

/-- `re.match` of `^(\d+\.)+` as a prefix pattern: a match object exists
exactly when one `\d+\.` group matches at the start. -/
def matchNumberedPrefix (s : List Char) : Bool := (digitsThenDot? s).isSome

/-- `re.match` of `^[A-Z]\.\s` as a prefix pattern. -/
def matchLetterEnumPrefix (s : List Char) : Bool :=
  match s with
  | c :: '.' :: d :: _ => c.isUpper && isPySpace d
  | _ => false

/-- `parser.PDFParser._estimate_heading_level`. -/
def _estimate_heading_level (heading : List Char) : Nat :=
  if matchNumberedPrefix heading then heading.count '.'
  else if pyIsUpper heading then 1
  else if matchLetterEnumPrefix heading then 2
  else 2

end DocIntel

namespace DocIntel

/-! ### Section segmentation (`parser.PDFParser.extract_sections`) -/

/-- `parser.PDFSection` (title and content are normalized by the
constructor, see `mkPDFSection`). -/
structure PSection where
  title : List Char
  content : List Char
  page_number : Nat
  level : Nat
deriving DecidableEq, Repr

/-- The `PDFSection.__init__` constructor: formats the title and cleans the
content. -/
def mkPDFSection (title content : List Char) (page_number : Nat) (level : Nat := 1) :
    PSection :=
  { title := format_section_title title, content := clean_text content,
    page_number := page_number, level := level }

/-- `parser.PDFParser.identify_headings`. -/
def identify_headings (text : List Char) : List (List Char × ℤ) :=
  (text.splitOn '\n').filterMap (fun line =>
    let l := pyStrip line
    if l = [] ∨ l.length < 3 ∨ 200 < l.length then none
    else
      let conf := _calculate_heading_confidence l
      if 0 < conf then some (l, conf) else none)

/-- Python `' '.join(xs)`. -/
def joinSp (xs : List (List Char)) : List Char := List.intercalate (chars " ") xs

/-- The mutable loop state of `extract_sections`: the emitted sections and
the open `current_section`. -/
structure SegState where
  sections : List PSection
  current : Option PSection
deriving DecidableEq, Repr

/-- The per-line loop of `extract_sections` for a page that contains
qualifying headings, plus the end-of-page flush of the residual buffer into
the open section. -/
def pageWithHeadings (pnum : Nat) (text : List Char) (headingKeys : List (List Char))
    (st : SegState) : SegState :=
  let step := fun (acc : SegState × List (List Char)) (line : List Char) =>
    let s := acc.1
    let buffer := acc.2
    let l := pyStrip line
    if l ∈ headingKeys then
      let s' :=
        match s.current with
        | some cs =>
          if buffer = [] then s
          else { sections := s.sections ++
                   [{ cs with content := cs.content ++ chars " " ++ joinSp buffer }],
                 current := s.current }
        | none => s
      ({ sections := s'.sections,
         current := some (mkPDFSection l [] pnum (_estimate_heading_level l)) },
       ([] : List (List Char)))
    else if l = [] then (s, buffer) else (s, buffer ++ [l])
  let res := (text.splitOn '\n').foldl step (st, [])
  match res.1.current, res.2 with
  | some cs, b :: bs =>
    { sections := res.1.sections,
      current := some { cs with content := cs.content ++ chars " " ++ joinSp (b :: bs) } }
  | _, _ => res.1

/-- The per-page body of `extract_sections`. -/
def processPage (min_confidence : ℤ) (st : SegState) (page : Nat × List Char) : SegState :=
  let pnum := page.1
  let text := page.2
  let headings := identify_headings text
  if headings = [] then
    match st.current with
    | some cs => { st with current := some { cs with content := cs.content ++ chars " " ++ text } }
    | none =>
      let def_section :=
        mkPDFSection (chars "Content from Page " ++ (Nat.repr pnum).data) text pnum
      { st with current := some def_section }
  else
    let headingKeys := (headings.filter (fun h => min_confidence ≤ h.2)).map (·.1)
    pageWithHeadings pnum text headingKeys st

/-- `extract_sections` up to (but not including) `_post_process_sections`:
the loop over pages plus the final emission of the open section. -/
def extract_sections_core (pages : List (Nat × List Char)) (min_confidence : ℤ) :
    List PSection :=
  let fin := pages.foldl (processPage min_confidence) ⟨[], none⟩
  match fin.current with
  | some cs => fin.sections ++ [cs]
  | none => fin.sections

/-- `parser.PDFParser._post_process_sections`. -/
def _post_process_sections (sections : List PSection) : List PSection :=
  sections.filterMap (fun s =>
    if (pyStrip s.content).length < 50 then none
    else some { s with content := clean_text s.content })

/-- `extract_text_from_pdf` minus the PDF I/O: page numbering by document
position, empty pages dropped, text normalized. -/
def pagesContent (rawPages : List (List Char)) : List (Nat × List Char) :=
  rawPages.enum.filterMap (fun p =>
    if pyStrip p.2 = [] then none else some (p.1 + 1, clean_text p.2))

/-- `extract_sections` on in-memory page texts. -/
def extract_sections_from_pages (rawPages : List (List Char)) (min_confidence : ℤ := 30) :
    List PSection :=
  _post_process_sections (extract_sections_core (pagesContent rawPages) min_confidence)

end DocIntel

namespace DocIntel

/-! ### Matching and ranking (`matcher.py`)

A candidate dictionary is modelled as a record.  The fields `document`,
`title`, `page_number`, `content` and `similarity_score` are always present
in the pipeline (so the `.get` defaults of the source are never exercised);
the chunk-specific keys, which `_merge_section_chunks` removes with `pop`,
are `Option`-valued.  Scores are exact rationals: the matcher only copies
and compares them.

The per-candidate similarity `calculate_cosine_similarity(query_embedding,
section['embedding'])` of `rank_sections` is abstracted as a parameter
`sim : List ℚ → ℚ` (the query embedding is baked into `sim`); everything
downstream of the score computation is embedded exactly. -/

/-- A candidate section or chunk dictionary. -/
structure Cand where
  document : List Char := []
  title : List Char := []
  page_number : ℤ := 0
  content : List Char := []
  chunk_id : Option ℤ := none
  chunk_text : Option (List Char) := none
  embedding : Option (List ℚ) := none
  similarity_score : ℚ := 0
  merged_chunks : Option Nat := none
  chunk_similarities : List ℚ := []
  is_chunked : Option Bool := none
  total_chunks : Option Nat := none
deriving DecidableEq, Repr

/-- The `(document, title, page_number)` grouping key of
`merge_chunked_sections`. -/
abbrev SecKey := List Char × List Char × ℤ

def keyOf (c : Cand) : SecKey := (c.document, c.title, c.page_number)

/-- Descending-by-score comparison.  `scored_sections.sort(key=..., reverse=True)`
is a stable descending sort; `List.insertionSort` with this relation is the
same stable descending sort. -/
def descBySim (a b : Cand) : Prop := b.similarity_score ≤ a.similarity_score

instance : DecidableRel descBySim := fun a b =>
  inferInstanceAs (Decidable (b.similarity_score ≤ a.similarity_score))

instance : IsTotal Cand descBySim := ⟨fun a b => le_total b.similarity_score a.similarity_score⟩

instance : IsTrans Cand descBySim := ⟨fun _ _ _ h1 h2 => le_trans h2 h1⟩

/-- `chunk.get('chunk_id', 0)`. -/
def cidOf (c : Cand) : ℤ := c.chunk_id.getD 0

/-- Ascending-by-chunk-id comparison used by
`sorted(chunks, key=lambda x: x.get('chunk_id', 0))` (a stable ascending
sort, again realized by `List.insertionSort`). -/
def ascByCid (a b : Cand) : Prop := cidOf a ≤ cidOf b

instance : DecidableRel ascByCid := fun a b =>
  inferInstanceAs (Decidable (cidOf a ≤ cidOf b))

instance : IsTotal Cand ascByCid := ⟨fun a b => le_total (cidOf a) (cidOf b)⟩

instance : IsTrans Cand ascByCid := ⟨fun _ _ _ h1 h2 => le_trans h1 h2⟩

/-- `matcher.SectionMatcher.rank_sections`. -/
def rank_sections (sim : List ℚ → ℚ) (min_similarity_threshold : ℚ)
    (embedded_sections : List Cand) (top_k : Nat) : List Cand :=
  let scored := embedded_sections.filterMap (fun s =>
    match s.embedding with
    | none => none
    | some e =>
      let similarity := sim e
      if min_similarity_threshold ≤ similarity then
        some { s with similarity_score := similarity }
      else none)
  (List.insertionSort descBySim scored).take top_k

/-- Python `max(c :: cs, key=f)`: the first element attaining the maximal
key. -/
def pyMaxBy (f : Cand → ℚ) (c : Cand) : List Cand → Cand
  | [] => c
  | d :: ds => pyMaxBy f (if f c < f d then d else c) ds

/-- `chunk.get('chunk_text', chunk.get('content', ''))`. -/
def textOf (c : Cand) : List Char := c.chunk_text.getD c.content

/-- `matcher.SectionMatcher._merge_section_chunks`. -/
def _merge_section_chunks (chunks : List Cand) : Cand :=
  match chunks with
  | [] => {}
  | c :: cs =>
    let best := pyMaxBy (·.similarity_score) c cs
    let ordered := List.insertionSort ascByCid chunks
    let texts := ordered.filterMap (fun ch =>
      let t := textOf ch
      if t = [] then none else some t)
    { best with
      content := joinSp texts
      merged_chunks := some chunks.length
      chunk_similarities := chunks.map (·.similarity_score)
      chunk_id := none, chunk_text := none, is_chunked := none, total_chunks := none }

/-- The distinct elements of a list in order of first occurrence (`seen` is
the set of keys already taken).  An insertion-ordered Python dict keyed by
`SecKey` enumerates its keys in exactly this order. -/
def dedupFirstAux (seen : List SecKey) : List SecKey → List SecKey
  | [] => []
  | k :: ks => if k ∈ seen then dedupFirstAux seen ks
               else k :: dedupFirstAux (k :: seen) ks

def dedupFirst (ks : List SecKey) : List SecKey := dedupFirstAux [] ks

/-- The `section_groups` dict of `merge_chunked_sections`: groups in
first-seen key order, each group listing its members in input order. -/
def groupByKey (l : List Cand) : List (SecKey × List Cand) :=
  (dedupFirst (l.map keyOf)).map (fun k => (k, l.filter (fun c => keyOf c = k)))

/-- `matcher.SectionMatcher.merge_chunked_sections`. -/
def merge_chunked_sections (ranked_sections : List Cand) : List Cand :=
  let merged := (groupByKey ranked_sections).map (fun g =>
    match g.2 with
    | [s] => s
    | grp => _merge_section_chunks grp)
  List.insertionSort descBySim merged

/-- Python `round(x, 4)`: round half to even, on the exact rational value. -/
def pyRound4 (q : ℚ) : ℚ :=
  let scaled := q * 10000
  let f : ℤ := ⌊scaled⌋
  let frac := scaled - f
  let r : ℤ :=
    if frac < 1/2 then f
    else if 1/2 < frac then f + 1
    else if f % 2 = 0 then f else f + 1
  (r : ℚ) / 10000

/-- An `extracted_sections` output record. -/
structure SummaryEntry where
  document : List Char
  section_title : List Char
  importance_rank : Nat
  page_number : ℤ
  similarity_score : ℚ
deriving DecidableEq, Repr

/-- `matcher.SectionMatcher.create_section_summaries`. -/
def create_section_summaries (ranked_sections : List Cand) : List SummaryEntry :=
  ranked_sections.enum.map (fun p =>
    { document := p.2.document, section_title := p.2.title, importance_rank := p.1 + 1,
      page_number := p.2.page_number, similarity_score := pyRound4 p.2.similarity_score })

/-- `matcher.SectionMatcher._create_refined_text` needs Python `rfind`: the
largest index of a matching character, `-1` when there is none. -/
def rfindLast (p : Char → Bool) : List Char → ℤ
  | [] => -1
  | c :: cs =>
    let r := rfindLast p cs
    if 0 ≤ r then r + 1 else if p c then 0 else -1

def ELLIPSIS : List Char := chars "..."

/-- `matcher.SectionMatcher._create_refined_text`.  The float comparison
`last_sentence_end > max_length * 0.7` is taken over exact rationals (for
the default `max_length = 500` the float product is exactly `350.0`, so the
two readings agree). -/
def _create_refined_text (content : List Char) (max_length : Nat := 500) : List Char :=
  if content = [] then chars "No content available."
  else
    let c := pyStrip content
    if c.length ≤ max_length then c
    else
      let truncated := c.take max_length
      let last_period := rfindLast (· == '.') truncated
      let last_exclamation := rfindLast (· == '!') truncated
      let last_question := rfindLast (· == '?') truncated
      let last_sentence_end := max last_period (max last_exclamation last_question)
      if (max_length : ℚ) * 0.7 < (last_sentence_end : ℚ) then
        truncated.take (last_sentence_end.toNat + 1)
      else
        let last_space := rfindLast (· == ' ') truncated
        if 0 < last_space then truncated.take last_space.toNat ++ ELLIPSIS
        else truncated ++ ELLIPSIS

/-- A `subsection_analysis` output record. -/
structure AnalysisEntry where
  document : List Char
  section_title : List Char
  refined_text : List Char
  page_number : ℤ
  similarity_score : ℚ
deriving DecidableEq, Repr

/-- `matcher.SectionMatcher.create_subsection_analysis`. -/
def create_subsection_analysis (ranked_sections : List Cand)
    (max_subsections : Nat := 5) : List AnalysisEntry :=
  (ranked_sections.take max_subsections).map (fun s =>
    { document := s.document, section_title := s.title,
      refined_text := _create_refined_text s.content,
      page_number := s.page_number, similarity_score := pyRound4 s.similarity_score })

/-- `matcher.match_and_rank_sections` (the module-level entry point; the
matcher is constructed with the default threshold `0.3`, written `mkRat 3 10`
so that the kernel can evaluate the comparison on concrete inputs). -/
def match_and_rank_sections (sim : List ℚ → ℚ) (embedded_sections : List Cand)
    (top_k : Nat := 10) : List SummaryEntry × List AnalysisEntry :=
  let ranked := rank_sections sim (mkRat 3 10) embedded_sections top_k
  let merged := merge_chunked_sections ranked
  (create_section_summaries merged, create_subsection_analysis merged)

/-- The number of candidates that carry an embedding and whose similarity
score meets the threshold (the `count_above_threshold` of the spec). -/
def count_above_threshold (sim : List ℚ → ℚ) (threshold : ℚ) (sections : List Cand) : Nat :=
  (sections.filter (fun s =>
    match s.embedding with
    | none => false
    | some e => decide (threshold ≤ sim e))).length

/-! ### Cosine similarity (`embeddings.calculate_cosine_similarity`)

Numpy vectors of a fixed dimension are modelled as `Fin n → ℝ`;
`np.linalg.norm` is the Euclidean norm, i.e. the square root of the dot
product with itself. -/

def npDot {n : ℕ} (v w : Fin n → ℝ) : ℝ := ∑ i, v i * w i

noncomputable def npNorm {n : ℕ} (v : Fin n → ℝ) : ℝ := Real.sqrt (npDot v v)

open Classical in
/-- `embeddings.calculate_cosine_similarity`. -/
noncomputable def calculate_cosine_similarity {n : ℕ} (embedding1 embedding2 : Fin n → ℝ) : ℝ :=
  if npNorm embedding1 = 0 ∨ npNorm embedding2 = 0 then 0
  else (npDot embedding1 embedding2 / (npNorm embedding1 * npNorm embedding2) + 1) / 2

end DocIntel

namespace DocIntel

/-!
## Theorems

### C6 — the heading classifier on "INTRODUCTION"
-/

/-- C6, counterexample: the classifier does not return 85 on
`"INTRODUCTION"` as the claim states — the prose-indicator penalty fires
(the stop-word `"in"` is a substring of `"introduction"`). -/
theorem heading_confidence_INTRODUCTION_ne_85 :
    _calculate_heading_confidence (chars "INTRODUCTION") ≠ 85 := by decide

/-- C6, amended: the classifier on `"INTRODUCTION"` returns exactly 75
(+30 all-caps pattern, +10 length under 80, +25 all-caps under 50,
+20 structural keyword, −10 prose-indicator substring `"in"`), which is
still at least the default threshold 30, so the line is classified as a
heading. -/
theorem heading_confidence_INTRODUCTION_eq_75 :
    _calculate_heading_confidence (chars "INTRODUCTION") = 75 ∧
    30 ≤ _calculate_heading_confidence (chars "INTRODUCTION") := by decide

/-!
### C7 — chunking 600 copies of 'A'
-/

/-- C7, counterexample: `chunk_text` on 600 copies of `'A'` (512/50) does
not produce chunks of lengths 512 and 88. -/
theorem chunk_600A_lengths_ne :
    (chunk_text (List.replicate 600 'A') 512 50).map List.length ≠ [512, 88] := by decide

/-- C7, amended: `chunk_text` on 600 copies of `'A'` (512/50) produces
exactly two chunks, of lengths 512 and 138: the first window is cut hard at
512 (no space to retreat to), `start` then advances to
`max(0+1, 512−50) = 462`, and the final chunk spans positions 462..599. -/
theorem chunk_600A_lengths_eq :
    (chunk_text (List.replicate 600 'A') 512 50).map List.length = [512, 138] := by decide

/-!
### C10 — silent loss of an open section at a buffer-empty heading
-/

def pageA : List Char := List.replicate 250 'a'

def pagesC10 : List (List Char) := [pageA, chars "INTRODUCTION"]

/-- C10: there is a page sequence on which segmentation silently discards
an open section with non-empty content.  Page 1 has no headings, so it
opens a default section holding its 250 characters of content; page 2
starts with the qualifying heading `"INTRODUCTION"` while the line buffer
is still empty, so the open section is replaced without being appended.
The pre-post-processing output is only the empty `Introduction` section —
no emitted section carries the page-1 content — and the final output is
empty. -/
theorem extract_sections_silently_discards_open_section :
    pageA ≠ [] ∧
    extract_sections_core (pagesContent pagesC10) 30 =
      [{ title := chars "Introduction", content := [], page_number := 2, level := 1 }] ∧
    (∀ s ∈ extract_sections_core (pagesContent pagesC10) 30, s.content ≠ clean_text pageA) ∧
    extract_sections_from_pages pagesC10 30 = [] := by decide

end DocIntel

namespace DocIntel

/-!
### C9 — the post-processing length invariant
-/

theorem pyStrip_eq_rdropWhile (s : List Char) :
    pyStrip s = List.rdropWhile isPySpace (s.dropWhile isPySpace) := rfl

theorem pyStrip_idem (s : List Char) : pyStrip (pyStrip s) = pyStrip s := by
  rw [pyStrip_eq_rdropWhile, pyStrip_eq_rdropWhile]
  have h1 : List.dropWhile isPySpace (List.rdropWhile isPySpace (s.dropWhile isPySpace)) =
      List.rdropWhile isPySpace (s.dropWhile isPySpace) := by
    rw [List.dropWhile_eq_self_iff]
    intro hl
    obtain ⟨t, ht⟩ := List.rdropWhile_prefix isPySpace (s.dropWhile isPySpace)
    have hlen : 0 < (s.dropWhile isPySpace).length := by
      rw [← ht, List.length_append]
      omega
    have h0 : (List.rdropWhile isPySpace (s.dropWhile isPySpace)).get? 0 =
        (s.dropWhile isPySpace).get? 0 := by
      conv_rhs => rw [← ht]
      exact (List.get?_append hl).symm
    rw [List.get?_eq_get hl, List.get?_eq_get hlen] at h0
    rw [Option.some_inj.mp h0]
    exact List.dropWhile_get_zero_not isPySpace s hlen
  rw [h1, List.rdropWhile_idempotent]

theorem pyStrip_clean_text (s : List Char) : pyStrip (clean_text s) = clean_text s := by
  simp only [clean_text]
  exact pyStrip_idem _

/-- C9, amended (main theorem): on sections whose content is already
normalized — i.e. a fixed point of `clean_text`, which is how segmentation
produces them — post-processing retains exactly the sections of content
length at least 50, unchanged, and so every retained section has content
length at least 50.  (On non-normalized content the threshold is tested on
the *stripped raw* content while the retained content is re-normalized,
which can shrink below the threshold — see the counterexample.) -/
theorem post_process_spec (sections : List PSection)
    (hnorm : ∀ s ∈ sections, clean_text s.content = s.content) :
    _post_process_sections sections =
      sections.filter (fun s => decide (50 ≤ s.content.length)) ∧
    ∀ t ∈ _post_process_sections sections, 50 ≤ t.content.length := by
  have main : _post_process_sections sections =
      sections.filter (fun s => decide (50 ≤ s.content.length)) := by
    induction sections with
    | nil => rfl
    | cons a l ih =>
      have ha := hnorm a (List.mem_cons_self a l)
      have hl : ∀ s ∈ l, clean_text s.content = s.content :=
        fun s hs => hnorm s (List.mem_cons_of_mem a hs)
      have hstrip : pyStrip a.content = a.content := by
        rw [← ha]; exact pyStrip_clean_text _
      have heta : ({ a with content := a.content } : PSection) = a := rfl
      by_cases hlt : (pyStrip a.content).length < 50
      · have hlt' : ¬ 50 ≤ a.content.length := by rw [← hstrip]; omega
        simp only [_post_process_sections, List.filterMap_cons, if_pos hlt,
          List.filter_cons, hlt', decide_False]
        exact ih hl
      · have hge : 50 ≤ a.content.length := by rw [← hstrip]; omega
        simp only [_post_process_sections, List.filterMap_cons, if_neg hlt,
          List.filter_cons, hge, decide_True, ha, heta]
        exact congrArg (a :: ·) (ih hl)
  refine ⟨main, fun t ht => ?_⟩
  rw [main] at ht
  exact of_decide_eq_true (List.mem_filter.mp ht).2

/-- A section whose raw content passes the 50-character stripped-length test
only thanks to a run of internal whitespace. -/
def overspacedSection : PSection :=
  { title := chars "T", content := chars "a" ++ List.replicate 100 ' ' ++ chars "b",
    page_number := 1, level := 1 }

/-- C9, counterexample: post-processing can retain a section whose final
content length is below the 50-character threshold — the threshold is
checked on the stripped raw content (102 characters here) before the
content is re-normalized to `"a b"` (3 characters). -/
theorem post_process_retains_under_50 :
    ¬ (∀ t ∈ _post_process_sections [overspacedSection], 50 ≤ t.content.length) := by
  decide

def normalSection : PSection :=
  { title := chars "S", content := List.replicate 60 'x', page_number := 1, level := 1 }

def tinySection : PSection :=
  { title := chars "S", content := chars "tiny", page_number := 2, level := 1 }

/-- Witness for `post_process_spec` at a concrete normalized input. -/
theorem post_process_spec_witness :
    (∀ s ∈ [normalSection, tinySection], clean_text s.content = s.content) ∧
    (_post_process_sections [normalSection, tinySection] =
      [normalSection, tinySection].filter (fun s => decide (50 ≤ s.content.length)) ∧
    ∀ t ∈ _post_process_sections [normalSection, tinySection], 50 ≤ t.content.length) :=
  ⟨by decide, post_process_spec _ (by decide)⟩

end DocIntel

namespace DocIntel

/-!
### C8 — heading level estimation
-/

/-- C8, counterexample: `"2.1 Foo"` matches the numbered-heading pattern
and contains exactly one `'.'`, so its level is 1, not 2 as the claim
states. -/
theorem heading_level_21Foo_ne_2 :
    _estimate_heading_level (chars "2.1 Foo") ≠ 2 := by decide

/-- C8, amended: a heading matching the numbered pattern `(\d+\.)+` gets
level = number of `'.'` characters in it (so `"2.1 Foo"`, with one dot,
gets level 1, not 2); otherwise an all-uppercase heading gets level 1;
otherwise a single-letter enumeration heading gets level 2; anything else
defaults to level 2. -/
theorem estimate_heading_level_spec :
    (∀ h, matchNumberedPrefix h = true →
      _estimate_heading_level h = h.count '.') ∧
    _estimate_heading_level (chars "2.1 Foo") = 1 ∧
    (∀ h, matchNumberedPrefix h = false → pyIsUpper h = true →
      _estimate_heading_level h = 1) ∧
    (∀ h, matchNumberedPrefix h = false → pyIsUpper h = false →
      matchLetterEnumPrefix h = true → _estimate_heading_level h = 2) ∧
    (∀ h, matchNumberedPrefix h = false → pyIsUpper h = false →
      matchLetterEnumPrefix h = false → _estimate_heading_level h = 2) := by
  refine ⟨?_, by decide, ?_, ?_, ?_⟩
  · intro h h1
    simp [_estimate_heading_level, h1]
  · intro h h1 h2
    simp [_estimate_heading_level, h1, h2]
  · intro h h1 h2 h3
    simp [_estimate_heading_level, h1, h2, h3]
  · intro h h1 h2 h3
    simp [_estimate_heading_level, h1, h2, h3]

/-- Witness for `estimate_heading_level_spec`, exercising each rule at a
concrete heading. -/
theorem estimate_heading_level_spec_witness :
    (matchNumberedPrefix (chars "3.2. X") = true ∧
      _estimate_heading_level (chars "3.2. X") = (chars "3.2. X").count '.') ∧
    (matchNumberedPrefix (chars "RESULTS") = false ∧ pyIsUpper (chars "RESULTS") = true ∧
      _estimate_heading_level (chars "RESULTS") = 1) ∧
    (matchNumberedPrefix (chars "A. Foo") = false ∧ pyIsUpper (chars "A. Foo") = false ∧
      matchLetterEnumPrefix (chars "A. Foo") = true ∧
      _estimate_heading_level (chars "A. Foo") = 2) ∧
    (matchNumberedPrefix (chars "hello") = false ∧ pyIsUpper (chars "hello") = false ∧
      matchLetterEnumPrefix (chars "hello") = false ∧
      _estimate_heading_level (chars "hello") = 2) :=
  ⟨⟨by decide, estimate_heading_level_spec.1 _ (by decide)⟩,
   ⟨by decide, by decide, estimate_heading_level_spec.2.2.1 _ (by decide) (by decide)⟩,
   ⟨by decide, by decide, by decide,
     estimate_heading_level_spec.2.2.2.1 _ (by decide) (by decide) (by decide)⟩,
   ⟨by decide, by decide, by decide,
     estimate_heading_level_spec.2.2.2.2 _ (by decide) (by decide) (by decide)⟩⟩

end DocIntel

namespace DocIntel

/-!
### C5 — refined-text truncation

Characterization of Python `rfind` results, used to state the truncation
claim independently of the implementation.
-/

theorem neg_one_le_rfindLast (p : Char → Bool) (l : List Char) : -1 ≤ rfindLast p l := by
  induction l with
  | nil => simp [rfindLast]
  | cons c cs ih =>
    simp only [rfindLast]
    split_ifs <;> omega

theorem rfindLast_lt_length (p : Char → Bool) (l : List Char) :
    rfindLast p l < l.length := by
  induction l with
  | nil => simp [rfindLast]
  | cons c cs ih =>
    simp only [rfindLast, List.length_cons]
    split_ifs <;> push_cast <;> omega

/-- `i` is the largest index of `l` whose character satisfies `p`. -/
def IsLastIdx (p : Char → Bool) (l : List Char) (i : Nat) : Prop :=
  i < l.length ∧ p (l.getD i ' ') = true ∧
  ∀ j, j < l.length → i < j → p (l.getD j ' ') = false

instance (p : Char → Bool) (l : List Char) (i : Nat) : Decidable (IsLastIdx p l i) := by
  unfold IsLastIdx
  infer_instance

theorem rfindLast_cases (p : Char → Bool) (l : List Char) :
    (rfindLast p l = -1 ∧ ∀ j, j < l.length → p (l.getD j ' ') = false) ∨
    (∃ i : Nat, IsLastIdx p l i ∧ rfindLast p l = (i : ℤ)) := by
  induction l with
  | nil => exact Or.inl ⟨rfl, by simp⟩
  | cons c cs ih =>
    rcases ih with ⟨hneg, hall⟩ | ⟨i, ⟨hi, hpi, hmax⟩, hval⟩
    · by_cases hc : p c
      · refine Or.inr ⟨0, ⟨by simp, by simpa using hc, ?_⟩, ?_⟩
        · intro j hj h0
          cases j with
          | zero => omega
          | succ j' => simpa using hall j' (by simpa using hj)
        · simp [rfindLast, hneg, hc]
      · refine Or.inl ⟨?_, ?_⟩
        · simp [rfindLast, hneg, hc]
        · intro j hj
          cases j with
          | zero => simpa using hc
          | succ j' => simpa using hall j' (by simpa using hj)
    · refine Or.inr ⟨i + 1, ⟨by simpa using hi, by simpa using hpi, ?_⟩, ?_⟩
      · intro j hj hij
        cases j with
        | zero => omega
        | succ j' => exact (by simpa using hmax j' (by simpa using hj) (by omega))
      · simp only [rfindLast, hval]
        split_ifs <;> omega

theorem rfindLast_eq_of_isLastIdx {p : Char → Bool} {l : List Char} {i : Nat}
    (h : IsLastIdx p l i) : rfindLast p l = (i : ℤ) := by
  rcases rfindLast_cases p l with ⟨_, hall⟩ | ⟨i', hi', hval⟩
  · have hcontr := hall i h.1
    rw [h.2.1] at hcontr
    exact absurd hcontr (by simp)
  · have hii : i = i' := by
      by_contra hne
      rcases Nat.lt_or_ge i i' with hlt | hge
      · have hcontr := h.2.2 i' hi'.1 hlt
        rw [hi'.2.1] at hcontr
        exact absurd hcontr (by simp)
      · have hlt : i' < i := by omega
        have hcontr := hi'.2.2 i h.1 hlt
        rw [h.2.1] at hcontr
        exact absurd hcontr (by simp)
    rw [hval, hii]

/-- The set of sentence-terminating characters of `_create_refined_text`. -/
def isSentenceEnd (c : Char) : Bool := c == '.' || c == '!' || c == '?'

theorem rfindLast_sentenceEnd (l : List Char) :
    rfindLast isSentenceEnd l =
      max (rfindLast (· == '.') l)
        (max (rfindLast (· == '!') l) (rfindLast (· == '?') l)) := by
  induction l with
  | nil => simp [rfindLast]
  | cons c cs ih =>
    have h1 := neg_one_le_rfindLast (· == '.') cs
    have h2 := neg_one_le_rfindLast (· == '!') cs
    have h3 := neg_one_le_rfindLast (· == '?') cs
    simp only [rfindLast, ih, isSentenceEnd]
    by_cases hd : c == '.' <;> by_cases he : c == '!' <;> by_cases hq : c == '?' <;>
      simp only [hd, he, hq, Bool.true_or, Bool.or_true, Bool.false_or, Bool.or_false] <;>
      split_ifs <;> omega

theorem q07_lt_iff (m : Nat) (x : ℤ) :
    (m : ℚ) * 0.7 < (x : ℚ) ↔ 7 * (m : ℤ) < 10 * x := by
  have h : (m : ℚ) * 0.7 = ((7 * m : ℤ) : ℚ) / 10 := by push_cast; ring
  rw [h, div_lt_iff₀ (by norm_num : (0 : ℚ) < 10),
    show ((x : ℚ) * 10) = ((10 * x : ℤ) : ℚ) by push_cast; ring]
  exact_mod_cast Iff.rfl

end DocIntel

namespace DocIntel

/-- The `last_sentence_end > max_length * 0.7` test fails whenever every
sentence-terminating character of the window sits at or below 70% of the
window size. -/
theorem sentence_cond_false {t : List Char} {m : Nat} (hlen : t.length = m)
    (hbound : ∀ k, k < m → isSentenceEnd (t.getD k ' ') = true →
      10 * (k : ℤ) ≤ 7 * (m : ℤ)) :
    ¬ ((m : ℚ) * 0.7 <
      ((max (rfindLast (· == '.') t)
          (max (rfindLast (· == '!') t) (rfindLast (· == '?') t)) : ℤ) : ℚ)) := by
  rw [← rfindLast_sentenceEnd]
  rcases rfindLast_cases isSentenceEnd t with ⟨hneg, _⟩ | ⟨i, hIs, hval⟩
  · rw [hneg, q07_lt_iff]
    omega
  · rw [hval, q07_lt_iff]
    have hb := hbound i (hlen ▸ hIs.1) hIs.2.1
    omega

/-- C5, counterexample: content of length at most `max_length` is *not*
returned unchanged — it is whitespace-stripped first. -/
theorem refined_text_strips_input :
    _create_refined_text (chars " a") 500 ≠ chars " a" := by decide

/-- C5, amended: `_create_refined_text` returns the fixed placeholder on
empty content; returns the *stripped* content when its length fits in
`max_length` (stripped, not unchanged as claimed); otherwise the result
never exceeds `max_length + 3` characters; the last sentence-terminating
character within the first `max_length` characters causes truncation at it
inclusive when its position is *strictly greater than* 70% of `max_length`
(not ≥ as claimed); otherwise the window is cut at its last space when one
exists at positive index (so no word is split) with `"..."` appended, and
only when no such space exists is the window cut hard at `max_length` with
`"..."` appended. -/
theorem create_refined_text_spec (content : List Char) (max_length : Nat) :
    (_create_refined_text [] max_length = chars "No content available.") ∧
    (content ≠ [] → (pyStrip content).length ≤ max_length →
      _create_refined_text content max_length = pyStrip content) ∧
    (content ≠ [] → max_length < (pyStrip content).length →
      (_create_refined_text content max_length).length ≤ max_length + ELLIPSIS.length) ∧
    (∀ i : Nat, content ≠ [] → max_length < (pyStrip content).length →
      IsLastIdx isSentenceEnd ((pyStrip content).take max_length) i →
      7 * (max_length : ℤ) < 10 * (i : ℤ) →
      _create_refined_text content max_length =
        ((pyStrip content).take max_length).take (i + 1)) ∧
    (∀ j : Nat, content ≠ [] → max_length < (pyStrip content).length →
      (∀ k, k < max_length →
        isSentenceEnd (((pyStrip content).take max_length).getD k ' ') = true →
        10 * (k : ℤ) ≤ 7 * (max_length : ℤ)) →
      IsLastIdx (· == ' ') ((pyStrip content).take max_length) j → 0 < j →
      _create_refined_text content max_length =
        ((pyStrip content).take max_length).take j ++ ELLIPSIS) ∧
    (content ≠ [] → max_length < (pyStrip content).length →
      (∀ k, k < max_length →
        isSentenceEnd (((pyStrip content).take max_length).getD k ' ') = true →
        10 * (k : ℤ) ≤ 7 * (max_length : ℤ)) →
      (∀ k, k < max_length → 0 < k →
        ¬ ((pyStrip content).take max_length).getD k ' ' = ' ') →
      _create_refined_text content max_length =
        (pyStrip content).take max_length ++ ELLIPSIS) := by
  have hel : ELLIPSIS.length = 3 := rfl
  refine ⟨by simp [_create_refined_text], ?_, ?_, ?_, ?_, ?_⟩
  · intro h1 h2
    simp only [_create_refined_text, if_neg h1, if_pos h2]
  · intro h1 h2
    have h2' := not_le.mpr h2
    have hlt : ((pyStrip content).take max_length).length = max_length := by
      rw [List.length_take]; omega
    simp only [_create_refined_text, if_neg h1, if_neg h2']
    split_ifs with hs hsp
    · have hlen2 := rfindLast_lt_length isSentenceEnd ((pyStrip content).take max_length)
      rw [← rfindLast_sentenceEnd] at hs
      have hge : (0:ℤ) ≤ rfindLast isSentenceEnd ((pyStrip content).take max_length) := by
        by_contra hneg
        have hm1 := neg_one_le_rfindLast isSentenceEnd ((pyStrip content).take max_length)
        have : rfindLast isSentenceEnd ((pyStrip content).take max_length) = -1 := by omega
        rw [this, q07_lt_iff] at hs
        omega
      rw [hlt] at hlen2
      rw [List.length_take]
      omega
    · have hlen2 := rfindLast_lt_length (· == ' ') ((pyStrip content).take max_length)
      rw [hlt] at hlen2
      rw [List.length_append, List.length_take, hel]
      omega
    · rw [List.length_append, hlt, hel]
  · intro i h1 h2 hIs h70
    have h2' := not_le.mpr h2
    have hrf : max (rfindLast (· == '.') ((pyStrip content).take max_length))
        (max (rfindLast (· == '!') ((pyStrip content).take max_length))
          (rfindLast (· == '?') ((pyStrip content).take max_length))) = (i : ℤ) := by
      rw [← rfindLast_sentenceEnd]
      exact rfindLast_eq_of_isLastIdx hIs
    simp only [_create_refined_text, if_neg h1, if_neg h2', hrf]
    rw [if_pos ((q07_lt_iff max_length (i : ℤ)).mpr h70), Int.toNat_natCast]
  · intro j h1 h2 hbound hIs hj
    have h2' := not_le.mpr h2
    have hlt : ((pyStrip content).take max_length).length = max_length := by
      rw [List.length_take]; omega
    have hns := sentence_cond_false hlt hbound
    have hsp : rfindLast (· == ' ') ((pyStrip content).take max_length) = (j : ℤ) :=
      rfindLast_eq_of_isLastIdx hIs
    simp only [_create_refined_text, if_neg h1, if_neg h2', hsp]
    rw [if_neg hns, if_pos (by exact_mod_cast hj : (0:ℤ) < (j:ℤ)), Int.toNat_natCast]
  · intro h1 h2 hbound hnosp
    have h2' := not_le.mpr h2
    have hlt : ((pyStrip content).take max_length).length = max_length := by
      rw [List.length_take]; omega
    have hns := sentence_cond_false hlt hbound
    have hsp : ¬ ((0:ℤ) < rfindLast (· == ' ') ((pyStrip content).take max_length)) := by
      rcases rfindLast_cases (· == ' ') ((pyStrip content).take max_length) with
        ⟨hneg, _⟩ | ⟨j, hIs', hval⟩
      · rw [hneg]; omega
      · have hjlt : j < max_length := hlt ▸ hIs'.1
        have hsp' : ((pyStrip content).take max_length).getD j ' ' = ' ' := by
          have := hIs'.2.1
          simpa using this
        have hj0 : j = 0 := by
          by_contra hne
          exact hnosp j hjlt (by omega) hsp'
        rw [hval, hj0]
        omega
    simp only [_create_refined_text, if_neg h1, if_neg h2']
    rw [if_neg hns, if_neg hsp]
end DocIntel

namespace DocIntel

/-- Witness for `create_refined_text_spec`, exercising every branch at
concrete inputs with `max_length = 10`. -/
theorem create_refined_text_spec_witness :
    (_create_refined_text [] 10 = chars "No content available.") ∧
    ((chars " abc" : List Char) ≠ [] ∧ (pyStrip (chars " abc")).length ≤ 10 ∧
      _create_refined_text (chars " abc") 10 = pyStrip (chars " abc")) ∧
    (10 < (pyStrip (chars "aaaa aaaa. zzzzz")).length ∧
      (_create_refined_text (chars "aaaa aaaa. zzzzz") 10).length ≤ 10 + ELLIPSIS.length) ∧
    (IsLastIdx isSentenceEnd ((pyStrip (chars "aaaa aaaa. zzzzz")).take 10) 9 ∧
      7 * (10 : ℤ) < 10 * (9 : ℤ) ∧
      _create_refined_text (chars "aaaa aaaa. zzzzz") 10 =
        ((pyStrip (chars "aaaa aaaa. zzzzz")).take 10).take (9 + 1)) ∧
    (IsLastIdx (· == ' ') ((pyStrip (chars "aaaa bbbb cccc zz")).take 10) 9 ∧
      _create_refined_text (chars "aaaa bbbb cccc zz") 10 =
        ((pyStrip (chars "aaaa bbbb cccc zz")).take 10).take 9 ++ ELLIPSIS) ∧
    _create_refined_text (List.replicate 12 'b') 10 =
      (pyStrip (List.replicate 12 'b')).take 10 ++ ELLIPSIS :=
  ⟨(create_refined_text_spec [] 10).1,
   ⟨by decide, by decide,
    (create_refined_text_spec (chars " abc") 10).2.1 (by decide) (by decide)⟩,
   ⟨by decide,
    (create_refined_text_spec (chars "aaaa aaaa. zzzzz") 10).2.2.1 (by decide) (by decide)⟩,
   ⟨by decide, by decide,
    (create_refined_text_spec (chars "aaaa aaaa. zzzzz") 10).2.2.2.1 9 (by decide) (by decide)
      (by decide) (by decide)⟩,
   ⟨by decide,
    (create_refined_text_spec (chars "aaaa bbbb cccc zz") 10).2.2.2.2.1 9 (by decide) (by decide)
      (by decide) (by decide) (by decide)⟩,
   (create_refined_text_spec (List.replicate 12 'b') 10).2.2.2.2.2 (by decide) (by decide)
     (by decide) (by decide)⟩

end DocIntel

namespace DocIntel

/-!
### C3 — merging chunks of the same section
-/

theorem pyMaxBy_mem (f : Cand → ℚ) (c : Cand) (cs : List Cand) :
    pyMaxBy f c cs ∈ c :: cs := by
  induction cs generalizing c with
  | nil => simp [pyMaxBy]
  | cons d ds ih =>
    simp only [pyMaxBy]
    rcases List.mem_cons.mp (ih (if f c < f d then d else c)) with h | h
    · rw [h]
      by_cases hcd : f c < f d
      · rw [if_pos hcd]
        exact List.mem_cons_of_mem c (List.mem_cons_self d ds)
      · rw [if_neg hcd]
        exact List.mem_cons_self c (d :: ds)
    · exact List.mem_cons_of_mem c (List.mem_cons_of_mem d h)

theorem le_pyMaxBy (f : Cand → ℚ) (c : Cand) (cs : List Cand) :
    f c ≤ f (pyMaxBy f c cs) ∧ ∀ d ∈ cs, f d ≤ f (pyMaxBy f c cs) := by
  induction cs generalizing c with
  | nil => simp [pyMaxBy]
  | cons d ds ih =>
    simp only [pyMaxBy]
    have hc : f c ≤ f (if f c < f d then d else c) := by
      by_cases hcd : f c < f d
      · rw [if_pos hcd]; exact le_of_lt hcd
      · rw [if_neg hcd]
    have hd : f d ≤ f (if f c < f d then d else c) := by
      by_cases hcd : f c < f d
      · rw [if_pos hcd]
      · rw [if_neg hcd]; exact le_of_not_lt hcd
    refine ⟨le_trans hc (ih _).1, fun e he => ?_⟩
    rcases List.mem_cons.mp he with rfl | he'
    · exact le_trans hd (ih _).1
    · exact (ih _).2 e he'

theorem filterMap_textOf_of_nonempty (l : List Cand) (h : ∀ c ∈ l, textOf c ≠ []) :
    l.filterMap (fun ch => let t := textOf ch; if t = [] then none else some t) =
      l.map textOf := by
  induction l with
  | nil => rfl
  | cons c cs ih =>
    have hc := h c (List.mem_cons_self c cs)
    simp only [List.filterMap_cons, List.map_cons, if_neg hc]
    exact congrArg _ (ih fun d hd => h d (List.mem_cons_of_mem c hd))

/-- C3: merging two or more scored candidates of the same section yields a
record whose content joins the members' texts (all assumed non-empty, as
chunks produced by the pipeline are) with single spaces in ascending
chunk-id order — realized by a stable sort of the members — and whose
similarity score is the maximum score of the members. -/
theorem merge_section_chunks_spec (chunks : List Cand)
    (h2 : 2 ≤ chunks.length)
    (hne : ∀ c ∈ chunks, textOf c ≠ []) :
    (∃ ordered : List Cand, ordered.Perm chunks ∧
      ordered.Sorted ascByCid ∧
      (_merge_section_chunks chunks).content = joinSp (ordered.map textOf)) ∧
    (∀ c ∈ chunks, c.similarity_score ≤ (_merge_section_chunks chunks).similarity_score) ∧
    (_merge_section_chunks chunks).similarity_score ∈
      chunks.map (fun c => c.similarity_score) := by
  match chunks, h2 with
  | c :: cs, _ =>
    have hperm := List.perm_insertionSort ascByCid (c :: cs)
    have hne' : ∀ d ∈ List.insertionSort ascByCid (c :: cs), textOf d ≠ [] :=
      fun d hd => hne d (hperm.mem_iff.mp hd)
    have hcontent : (_merge_section_chunks (c :: cs)).content =
        joinSp ((List.insertionSort ascByCid (c :: cs)).map textOf) := by
      simp only [_merge_section_chunks]
      exact congrArg joinSp (filterMap_textOf_of_nonempty _ hne')
    have hscore : (_merge_section_chunks (c :: cs)).similarity_score =
        (pyMaxBy (fun x => x.similarity_score) c cs).similarity_score := rfl
    refine ⟨⟨List.insertionSort ascByCid (c :: cs), hperm,
        List.sorted_insertionSort ascByCid (c :: cs), hcontent⟩, ?_, ?_⟩
    · intro d hd
      rw [hscore]
      rcases List.mem_cons.mp hd with rfl | hd'
      · exact (le_pyMaxBy _ d cs).1
      · exact (le_pyMaxBy _ c cs).2 d hd'
    · rw [hscore]
      exact List.mem_map_of_mem _ (pyMaxBy_mem _ c cs)

def exChunk (cid : ℤ) (sc : ℚ) (t : String) : Cand :=
  { document := chars "doc", title := chars "sec", page_number := 1,
    chunk_id := some cid, chunk_text := some (chars t), similarity_score := sc }

/-- The example of the claim: scores 0.9, 0.7, 0.95 (as exact rationals)
with chunk ids 2, 0, 1. -/
def c3chunks : List Cand :=
  [exChunk 2 (mkRat 9 10) "c2", exChunk 0 (mkRat 7 10) "c0", exChunk 1 (mkRat 19 20) "c1"]

/-- Witness for `merge_section_chunks_spec` on the claim's example, with
the concrete merged content and score. -/
theorem merge_section_chunks_spec_witness :
    (2 ≤ c3chunks.length ∧ (∀ c ∈ c3chunks, textOf c ≠ [])) ∧
    ((∃ ordered : List Cand, ordered.Perm c3chunks ∧
      ordered.Sorted ascByCid ∧
      (_merge_section_chunks c3chunks).content = joinSp (ordered.map textOf)) ∧
    (∀ c ∈ c3chunks, c.similarity_score ≤ (_merge_section_chunks c3chunks).similarity_score) ∧
    (_merge_section_chunks c3chunks).similarity_score ∈
      c3chunks.map (fun c => c.similarity_score)) ∧
    (_merge_section_chunks c3chunks).content = chars "c0 c1 c2" ∧
    (_merge_section_chunks c3chunks).similarity_score = mkRat 19 20 :=
  ⟨⟨by decide, by decide⟩,
   merge_section_chunks_spec c3chunks (by decide) (by decide),
   by decide, by decide⟩

end DocIntel

namespace DocIntel

/-!
### C2 — caps on the two output views
-/

theorem dedupFirstAux_length_le (seen : List SecKey) (ks : List SecKey) :
    (dedupFirstAux seen ks).length ≤ ks.length := by
  induction ks generalizing seen with
  | nil => simp [dedupFirstAux]
  | cons k ks ih =>
    simp only [dedupFirstAux]
    split_ifs
    · exact le_trans (ih seen) (by simp)
    · simpa using Nat.succ_le_succ (ih (k :: seen))

theorem merge_chunked_sections_length (l : List Cand) :
    (merge_chunked_sections l).length = (dedupFirst (l.map keyOf)).length := by
  simp only [merge_chunked_sections]
  rw [(List.perm_insertionSort descBySim _).length_eq]
  simp [groupByKey]

theorem create_section_summaries_length (l : List Cand) :
    (create_section_summaries l).length = l.length := by
  simp [create_section_summaries]

/-- C2, amended: the detailed view (`subsection_analysis`) is capped at 5
entries, but the compact summary view (`extracted_sections`) is only capped
at `top_k` (10 by default) — there is no further cap of 5 on it. -/
theorem output_view_caps (sim : List ℚ → ℚ) (cands : List Cand) (top_k : Nat) :
    ((match_and_rank_sections sim cands top_k).2).length ≤ 5 ∧
    ((match_and_rank_sections sim cands top_k).1).length ≤ top_k := by
  constructor
  · simp only [match_and_rank_sections, create_subsection_analysis, List.length_map,
      List.length_take]
    omega
  · simp only [match_and_rank_sections]
    rw [create_section_summaries_length, merge_chunked_sections_length]
    refine le_trans (dedupFirstAux_length_le [] _) ?_
    rw [List.length_map]
    simp only [rank_sections, List.length_take]
    omega

def simOne : List ℚ → ℚ := fun _ => 1

def mkSimpleCand (t : String) : Cand :=
  { document := chars "d", title := chars t, page_number := 1,
    content := chars "c", embedding := some [1] }

def sixCands : List Cand :=
  [mkSimpleCand "t1", mkSimpleCand "t2", mkSimpleCand "t3",
   mkSimpleCand "t4", mkSimpleCand "t5", mkSimpleCand "t6"]

/-- C2, counterexample: with six distinct sections above threshold, the
`extracted_sections` view has six entries — it is not capped at 5 (only
`subsection_analysis` is). -/
theorem extracted_sections_not_capped_at_5 :
    ((match_and_rank_sections simOne sixCands 10).1).length = 6 ∧
    ¬ ((match_and_rank_sections simOne sixCands 10).1).length ≤ 5 := by decide

end DocIntel

namespace DocIntel

/-!
### C1 — summary length and dense ranks
-/

theorem dedupFirstAux_length (ks : List SecKey) : ∀ seen : List SecKey,
    (dedupFirstAux seen ks).length = (ks.toFinset \ seen.toFinset).card := by
  induction ks with
  | nil => intro seen; simp [dedupFirstAux]
  | cons k ks ih =>
    intro seen
    simp only [dedupFirstAux, List.toFinset_cons]
    by_cases hk : k ∈ seen
    · rw [if_pos hk, ih seen, Finset.insert_sdiff_of_mem _ (List.mem_toFinset.mpr hk)]
    · have hknot : k ∉ seen.toFinset := by simpa using hk
      rw [if_neg hk, List.length_cons, ih (k :: seen), List.toFinset_cons,
        Finset.sdiff_insert]
      have h1 : insert k ks.toFinset \ seen.toFinset =
          insert k ((ks.toFinset \ seen.toFinset).erase k) := by
        ext x
        simp only [Finset.mem_sdiff, Finset.mem_insert, Finset.mem_erase]
        constructor
        · rintro ⟨hx | hx, hxb⟩
          · exact Or.inl hx
          · by_cases hxk : x = k
            · exact Or.inl hxk
            · exact Or.inr ⟨hxk, hx, hxb⟩
        · rintro (rfl | ⟨hxk, hx, hxb⟩)
          · exact ⟨Or.inl rfl, hknot⟩
          · exact ⟨Or.inr hx, hxb⟩
      rw [h1, Finset.card_insert_of_not_mem (Finset.not_mem_erase k _)]

theorem dedupFirst_length (ks : List SecKey) :
    (dedupFirst ks).length = ks.toFinset.card := by
  rw [dedupFirst, dedupFirstAux_length]
  simp

theorem enumFrom_map_fst_add_one (l : List Cand) : ∀ n : Nat,
    (List.enumFrom n l).map (fun p => p.1 + 1) = List.range' (n + 1) l.length := by
  induction l with
  | nil => intro n; rfl
  | cons c cs ih =>
    intro n
    simp only [List.enumFrom, List.map_cons, List.length_cons, List.range'_succ]
    exact congrArg _ (ih (n + 1))

theorem create_section_summaries_ranks (l : List Cand) :
    (create_section_summaries l).map (fun e => e.importance_rank) =
      List.range' 1 l.length := by
  simp only [create_section_summaries, List.map_map]
  exact enumFrom_map_fst_add_one l 0

/-- The scoring `filterMap` of `rank_sections`, named for reuse in proofs. -/
def scoreStep (sim : List ℚ → ℚ) (θ : ℚ) (s : Cand) : Option Cand :=
  match s.embedding with
  | none => none
  | some e =>
    let similarity := sim e
    if θ ≤ similarity then some { s with similarity_score := similarity } else none

theorem rank_sections_eq (sim : List ℚ → ℚ) (θ : ℚ) (l : List Cand) (top_k : Nat) :
    rank_sections sim θ l top_k =
      (List.insertionSort descBySim (l.filterMap (scoreStep sim θ))).take top_k := rfl

theorem scored_length (sim : List ℚ → ℚ) (θ : ℚ) (l : List Cand) :
    (l.filterMap (scoreStep sim θ)).length = count_above_threshold sim θ l := by
  induction l with
  | nil => rfl
  | cons c cs ih =>
    simp only [List.filterMap_cons, count_above_threshold, List.filter_cons] at *
    cases hc : c.embedding with
    | none => simpa [scoreStep, hc] using ih
    | some e =>
      by_cases hθ : θ ≤ sim e
      · simpa [scoreStep, hc, hθ] using ih
      · simpa [scoreStep, hc, hθ] using ih

theorem rank_sections_length (sim : List ℚ → ℚ) (θ : ℚ) (l : List Cand) (top_k : Nat) :
    (rank_sections sim θ l top_k).length = min top_k (count_above_threshold sim θ l) := by
  rw [rank_sections_eq, List.length_take,
    (List.perm_insertionSort descBySim _).length_eq, scored_length]

theorem scoreStep_keyOf {sim : List ℚ → ℚ} {θ : ℚ} {s d : Cand}
    (hc : scoreStep sim θ s = some d) : keyOf d = keyOf s := by
  unfold scoreStep at hc
  split at hc
  · exact absurd hc (by simp)
  · simp only [] at hc
    split_ifs at hc
    cases hc
    rfl

theorem scored_keys_sublist (sim : List ℚ → ℚ) (θ : ℚ) (l : List Cand) :
    ((l.filterMap (scoreStep sim θ)).map keyOf).Sublist (l.map keyOf) := by
  induction l with
  | nil => simp
  | cons c cs ih =>
    simp only [List.filterMap_cons, List.map_cons]
    cases hc : scoreStep sim θ c with
    | none => exact ih.cons (keyOf c)
    | some d =>
      simp only [List.map_cons, scoreStep_keyOf hc]
      exact ih.cons₂ (keyOf c)

theorem ranked_keys_nodup (sim : List ℚ → ℚ) (θ : ℚ) (l : List Cand) (top_k : Nat)
    (h : (l.map keyOf).Nodup) :
    ((rank_sections sim θ l top_k).map keyOf).Sublist
      ((List.insertionSort descBySim (l.filterMap (scoreStep sim θ))).map keyOf) ∧
    ((rank_sections sim θ l top_k).map keyOf).Nodup := by
  have hsub : ((rank_sections sim θ l top_k).map keyOf).Sublist
      ((List.insertionSort descBySim (l.filterMap (scoreStep sim θ))).map keyOf) := by
    rw [rank_sections_eq]
    exact (List.take_sublist top_k _).map keyOf
  refine ⟨hsub, hsub.nodup ?_⟩
  have hperm : ((List.insertionSort descBySim (l.filterMap (scoreStep sim θ))).map keyOf).Perm
      ((l.filterMap (scoreStep sim θ)).map keyOf) :=
    (List.perm_insertionSort descBySim _).map keyOf
  exact hperm.nodup_iff.mpr ((scored_keys_sublist sim θ l).nodup h)

/-- C1, amended: the summary view's length equals the number of *distinct*
`(document, title, page_number)` keys among the ranked candidates (chunk
merging can collapse several ranked candidates into one summary row, so it
can be less than `min top_k count_above_threshold`); the `importance_rank`
values are exactly `1..len(summary)` in order; and when all candidate keys
are distinct (no chunked sections), the claimed identity
`len(summary) = min top_k count_above_threshold` does hold. -/
theorem ranking_summary_spec (sim : List ℚ → ℚ) (cands : List Cand) (top_k : Nat) :
    ((match_and_rank_sections sim cands top_k).1).length =
      ((rank_sections sim (mkRat 3 10) cands top_k).map keyOf).toFinset.card ∧
    ((match_and_rank_sections sim cands top_k).1).map (fun e => e.importance_rank) =
      List.range' 1 ((match_and_rank_sections sim cands top_k).1).length ∧
    ((cands.map keyOf).Nodup →
      ((match_and_rank_sections sim cands top_k).1).length =
        min top_k (count_above_threshold sim (mkRat 3 10) cands)) := by
  have hlen : ((match_and_rank_sections sim cands top_k).1).length =
      ((rank_sections sim (mkRat 3 10) cands top_k).map keyOf).toFinset.card := by
    simp only [match_and_rank_sections]
    rw [create_section_summaries_length, merge_chunked_sections_length, dedupFirst_length]
  refine ⟨hlen, ?_, ?_⟩
  · simp only [match_and_rank_sections]
    rw [create_section_summaries_ranks, create_section_summaries_length]
  · intro hnodup
    rw [hlen, List.toFinset_card_of_nodup
      (ranked_keys_nodup sim (mkRat 3 10) cands top_k hnodup).2,
      List.length_map, rank_sections_length]

/-- Two above-threshold chunks of the same section. -/
def dupChunks : List Cand :=
  [{ mkSimpleCand "t" with chunk_id := some 0, chunk_text := some (chars "x") },
   { mkSimpleCand "t" with chunk_id := some 1, chunk_text := some (chars "y") }]

/-- C1, counterexample: two above-threshold chunks of the same section are
merged into a single summary row, so `len(summary) = 1` while
`min(top_k, count_above_threshold) = min(10, 2) = 2`. -/
theorem summary_length_ne_min :
    ((match_and_rank_sections simOne dupChunks 10).1).length = 1 ∧
    count_above_threshold simOne (mkRat 3 10) dupChunks = 2 ∧
    ¬ ((match_and_rank_sections simOne dupChunks 10).1).length =
        min 10 (count_above_threshold simOne (mkRat 3 10) dupChunks) := by decide

/-- Witness for `ranking_summary_spec` on six distinct above-threshold
sections. -/
theorem ranking_summary_spec_witness :
    (sixCands.map keyOf).Nodup ∧
    ((match_and_rank_sections simOne sixCands 10).1).length =
      ((rank_sections simOne (mkRat 3 10) sixCands 10).map keyOf).toFinset.card ∧
    ((match_and_rank_sections simOne sixCands 10).1).map (fun e => e.importance_rank) =
      List.range' 1 ((match_and_rank_sections simOne sixCands 10).1).length ∧
    ((match_and_rank_sections simOne sixCands 10).1).length =
      min 10 (count_above_threshold simOne (mkRat 3 10) sixCands) :=
  ⟨by decide, (ranking_summary_spec simOne sixCands 10).1,
   (ranking_summary_spec simOne sixCands 10).2.1,
   (ranking_summary_spec simOne sixCands 10).2.2 (by decide)⟩

end DocIntel

namespace DocIntel

/-!
### C4 — cosine similarity score
-/

theorem npDot_self_nonneg {n : ℕ} (v : Fin n → ℝ) : 0 ≤ npDot v v :=
  Finset.sum_nonneg fun i _ => mul_self_nonneg (v i)

theorem npNorm_nonneg {n : ℕ} (v : Fin n → ℝ) : 0 ≤ npNorm v := Real.sqrt_nonneg _

theorem abs_npDot_le {n : ℕ} (q v : Fin n → ℝ) :
    |npDot q v| ≤ npNorm q * npNorm v := by
  have hcs := Finset.sum_mul_sq_le_sq_mul_sq Finset.univ q v
  have h1 : npDot q q = ∑ i, (q i) ^ 2 := by simp [npDot, pow_two]
  have h2 : npDot v v = ∑ i, (v i) ^ 2 := by simp [npDot, pow_two]
  have habs : |npDot q v| = Real.sqrt ((npDot q v) ^ 2) := (Real.sqrt_sq_eq_abs _).symm
  rw [habs, npNorm, npNorm, h1, h2, ← Real.sqrt_mul (by positivity)]
  exact Real.sqrt_le_sqrt hcs

theorem npDot_smul_left {n : ℕ} (c : ℝ) (q v : Fin n → ℝ) :
    npDot (fun i => c * q i) v = c * npDot q v := by
  simp [npDot, Finset.mul_sum, mul_assoc]

theorem npDot_smul_right {n : ℕ} (c : ℝ) (q v : Fin n → ℝ) :
    npDot q (fun i => c * v i) = c * npDot q v := by
  simp only [npDot, Finset.mul_sum]
  exact Finset.sum_congr rfl fun i _ => by ring

theorem npNorm_smul {n : ℕ} (c : ℝ) (hc : 0 ≤ c) (q : Fin n → ℝ) :
    npNorm (fun i => c * q i) = c * npNorm q := by
  have hdot : npDot (fun i => c * q i) (fun i => c * q i) = c ^ 2 * npDot q q := by
    simp only [npDot, Finset.mul_sum]
    exact Finset.sum_congr rfl fun i _ => by ring
  rw [npNorm, hdot, Real.sqrt_mul (sq_nonneg c), Real.sqrt_sq hc, npNorm]

/-- C4: the relevance score is 0.0 exactly when either vector has zero
magnitude (the function is total — no exception); otherwise it is
`(cosine + 1) / 2`; it always lies in `[0, 1]`; and it is invariant under
positive scaling of either vector. -/
theorem calculate_cosine_similarity_spec (n : ℕ) (q v : Fin n → ℝ) :
    ((npNorm q = 0 ∨ npNorm v = 0) → calculate_cosine_similarity q v = 0) ∧
    (npNorm q ≠ 0 → npNorm v ≠ 0 →
      calculate_cosine_similarity q v =
        (npDot q v / (npNorm q * npNorm v) + 1) / 2) ∧
    (0 ≤ calculate_cosine_similarity q v ∧ calculate_cosine_similarity q v ≤ 1) ∧
    (∀ c : ℝ, 0 < c →
      calculate_cosine_similarity (fun i => c * q i) v = calculate_cosine_similarity q v ∧
      calculate_cosine_similarity q (fun i => c * v i) = calculate_cosine_similarity q v) := by
  refine ⟨?_, ?_, ?_, ?_⟩
  · intro h
    simp [calculate_cosine_similarity, h]
  · intro h1 h2
    simp only [calculate_cosine_similarity]
    rw [if_neg (by tauto)]
  · by_cases h : npNorm q = 0 ∨ npNorm v = 0
    · simp [calculate_cosine_similarity, h]
    · push_neg at h
      have hqpos : 0 < npNorm q := lt_of_le_of_ne (npNorm_nonneg q) (Ne.symm h.1)
      have hvpos : 0 < npNorm v := lt_of_le_of_ne (npNorm_nonneg v) (Ne.symm h.2)
      have hprod : 0 < npNorm q * npNorm v := mul_pos hqpos hvpos
      have habs := abs_le.mp (abs_npDot_le q v)
      have hle : npDot q v / (npNorm q * npNorm v) ≤ 1 := by
        rw [div_le_one hprod]
        exact habs.2
      have hge : -1 ≤ npDot q v / (npNorm q * npNorm v) := by
        rw [le_div_iff₀ hprod]
        linarith [habs.1]
      simp only [calculate_cosine_similarity]
      rw [if_neg (by tauto)]
      constructor <;> linarith
  · intro c hc
    have hcne : c ≠ 0 := ne_of_gt hc
    constructor
    · have hnorm : npNorm (fun i => c * q i) = c * npNorm q := npNorm_smul c hc.le q
      by_cases h : npNorm q = 0 ∨ npNorm v = 0
      · have h' : npNorm (fun i => c * q i) = 0 ∨ npNorm v = 0 := by
          rcases h with h | h
          · exact Or.inl (by rw [hnorm, h, mul_zero])
          · exact Or.inr h
        simp only [calculate_cosine_similarity]
        rw [if_pos h, if_pos h']
      · push_neg at h
        have h' : ¬ (npNorm (fun i => c * q i) = 0 ∨ npNorm v = 0) := by
          push_neg
          exact ⟨by rw [hnorm]; exact mul_ne_zero hcne h.1, h.2⟩
        simp only [calculate_cosine_similarity]
        rw [if_neg h', if_neg (by tauto), npDot_smul_left, hnorm]
        have hq0 : npNorm q ≠ 0 := h.1
        have hv0 : npNorm v ≠ 0 := h.2
        field_simp
        ring
    · have hnorm : npNorm (fun i => c * v i) = c * npNorm v := npNorm_smul c hc.le v
      by_cases h : npNorm q = 0 ∨ npNorm v = 0
      · have h' : npNorm q = 0 ∨ npNorm (fun i => c * v i) = 0 := by
          rcases h with h | h
          · exact Or.inl h
          · exact Or.inr (by rw [hnorm, h, mul_zero])
        simp only [calculate_cosine_similarity]
        rw [if_pos h, if_pos h']
      · push_neg at h
        have h' : ¬ (npNorm q = 0 ∨ npNorm (fun i => c * v i) = 0) := by
          push_neg
          exact ⟨h.1, by rw [hnorm]; exact mul_ne_zero hcne h.2⟩
        simp only [calculate_cosine_similarity]
        rw [if_neg h', if_neg (by tauto), npDot_smul_right, hnorm]
        have hq0 : npNorm q ≠ 0 := h.1
        have hv0 : npNorm v ≠ 0 := h.2
        field_simp
        ring

end DocIntel

namespace DocIntel

/-- Witness for `calculate_cosine_similarity_spec` at the one-dimensional
vector `(1)`: its norm is nonzero, the bounds hold, and the non-degenerate
formula applies. -/
theorem calculate_cosine_similarity_spec_witness :
    npNorm (fun _ : Fin 1 => (1 : ℝ)) ≠ 0 ∧
    (0 ≤ calculate_cosine_similarity (fun _ : Fin 1 => (1 : ℝ)) (fun _ : Fin 1 => (1 : ℝ)) ∧
      calculate_cosine_similarity (fun _ : Fin 1 => (1 : ℝ)) (fun _ : Fin 1 => (1 : ℝ)) ≤ 1) ∧
    calculate_cosine_similarity (fun _ : Fin 1 => (1 : ℝ)) (fun _ : Fin 1 => (1 : ℝ)) =
      (npDot (fun _ : Fin 1 => (1 : ℝ)) (fun _ : Fin 1 => (1 : ℝ)) /
        (npNorm (fun _ : Fin 1 => (1 : ℝ)) * npNorm (fun _ : Fin 1 => (1 : ℝ))) + 1) / 2 :=
  have hne : npNorm (fun _ : Fin 1 => (1 : ℝ)) ≠ 0 := by
    simp [npNorm, npDot]
  ⟨hne, (calculate_cosine_similarity_spec 1 _ _).2.2.1,
   (calculate_cosine_similarity_spec 1 _ _).2.1 hne hne⟩

end DocIntel
